import Mathlib

/-!
Verification of the chess game session controller and move selector of
`ai_project/app.py` (a Tkinter GUI for a human-vs-AI chess game built on the
external `python-chess` rules engine).

The chess rules engine (`python-chess`) is an external collaborator, so it is
modelled abstractly as a `RulesEngine` structure over an arbitrary board type:
the controller and selector logic of `app.py` is embedded as pure functions
parameterised by such an engine.  Python's in-place `board.push` /
`board.pop` mutation is embedded by pure application: `push` returns the
successor board and the original board value stands for the restored board
after `pop`.  GUI-only effects (canvas redraws, message boxes, console
prints) have no game-state effect and are omitted; the `root.after(250, ...)`
scheduling of the AI reply is modelled by a `pending_ai` flag in the
application state, set by `trigger_ai_move` and consumed when the scheduled
callback `execute_ai_move` fires.

Python truthiness matters for one line of the source: `if self.selected_square:`
(app.py line 169) is false both when `selected_square` is `None` and when it
is the integer `0` (square a1).  The embedding reproduces this faithfully.
-/

namespace ChessGame

/-- Piece colours, after `chess.WHITE` / `chess.BLACK`. -/
inductive Color where
  | WHITE
  | BLACK
deriving DecidableEq, Repr

/-- Piece kinds, after `chess.PAWN`, ..., `chess.KING`. -/
inductive PieceType where
  | PAWN
  | KNIGHT
  | BISHOP
  | ROOK
  | QUEEN
  | KING
deriving DecidableEq, Repr

/-- A piece as returned by `board.piece_at`: a colour and a kind. -/
structure Piece where
  color : Color
  piece_type : PieceType
deriving DecidableEq, Repr

/-- A move as built by `chess.Move(from_square, to_square, promotion=...)`:
origin square, destination square, optional promotion kind.  Squares are the
`python-chess` integers `0..63` (a1 = 0, h8 = 63). -/
structure Move where
  from_square : Nat
  to_square : Nat
  promotion : Option PieceType
deriving DecidableEq, Repr

/-- `chess.square_rank(sq)`: the rank index `0..7` of a square. -/
def square_rank (sq : Nat) : Nat := sq / 8

/-- The external `python-chess` rules engine, abstracted over its board
representation `β`: exactly the operations `app.py` uses.  `push` returns the
successor board (the source mutates in place; `pop` restores the original,
which in this pure embedding is simply the original value). -/
structure RulesEngine (β : Type) where
  piece_at : β → Nat → Option Piece
  turn : β → Color
  legal_moves : β → List Move
  push : β → Move → β
  is_game_over : β → Bool

/-- The per-kind material values of `evaluate_board`'s `piece_values` dict:
pawn 1, knight 3, bishop 3, rook 5, queen 9, king 0. -/
def piece_values : PieceType → Int
  | PieceType.PAWN => 1
  | PieceType.KNIGHT => 3
  | PieceType.BISHOP => 3
  | PieceType.ROOK => 5
  | PieceType.QUEEN => 9
  | PieceType.KING => 0

/-- `evaluate_board(board)` from app.py lines 22-40: iterate over
`chess.SQUARES` (the integers 0..63), add the piece value for White pieces
and subtract it for Black pieces. -/
def evaluate_board {β : Type} (E : RulesEngine β) (board : β) : Int :=
  (List.range 64).foldl
    (fun score square =>
      match E.piece_at board square with
      | some piece =>
          if piece.color = Color.WHITE then
            score + piece_values piece.piece_type
          else
            score - piece_values piece.piece_type
      | none => score)
    0

/-- Modelled from the spec (section 4.2, "sum over all occupied squares of
`value(piece-kind) * sign`"): the signed value of one square's contents,
+1 sign for White, −1 for Black, 0 for an empty square.  Used only to state
the claim that `evaluate_board` computes this sum. -/
def signed_value : Option Piece → Int
  | none => 0
  | some p => (if p.color = Color.WHITE then 1 else -1) * piece_values p.piece_type

/-- `score < best_score` where `best_score` started at `float('inf')`:
`none` stands for the infinite initial value, which every integer score is
below; otherwise ordinary integer comparison. -/
def score_lt (score : Int) : Option Int → Bool
  | none => true
  | some c => score < c

/-- `score == best_score` against the possibly-infinite best score: an
integer never equals `float('inf')`. -/
def score_eq (score : Int) : Option Int → Bool
  | none => false
  | some c => score = c

/-- The scoring loop of `make_ai_move` (app.py lines 53-62): for each legal
move, push it, evaluate, pop (pure embedding: evaluate the pushed board,
keep the original), then update `(best_moves, best_score)` exactly as the
source's `if score < best_score / elif score == best_score` does. -/
def select_best {β : Type} (E : RulesEngine β) (board : β) :
    List Move → List Move → Option Int → List Move × Option Int
  | [], best_moves, best_score => (best_moves, best_score)
  | move :: rest, best_moves, best_score =>
      let score := evaluate_board E (E.push board move)
      if score_lt score best_score then
        select_best E board rest [move] (some score)
      else if score_eq score best_score then
        select_best E board rest (best_moves ++ [move]) best_score
      else
        select_best E board rest best_moves best_score

/-- `make_ai_move(board)` from app.py lines 42-69.  `random.choice` is
modelled by the parameter `pick` (a source of the tie-break choice); the
Boolean result and the resulting board stand for the source's return value
and its in-place board mutation. -/
def make_ai_move {β : Type} (E : RulesEngine β) (board : β)
    (pick : List Move → Move) : Bool × β :=
  let legal_moves := E.legal_moves board
  if legal_moves.isEmpty then
    (false, board)
  else
    let result := select_best E board legal_moves [] none
    let best_moves := result.1
    if best_moves.isEmpty then
      (false, board)
    else
      let chosen_move := pick best_moves
      (true, E.push board chosen_move)

/-- The observable state of `ChessApp` (app.py lines 79-81): the board, the
optional selected square, and the `game_over` flag.  `pending_ai` models
whether a `root.after(250, self.execute_ai_move)` callback is scheduled
(set by `trigger_ai_move`, consumed when the callback fires); it is the
"control handed to the AI turn" of the spec. -/
structure AppState (β : Type) where
  board : β
  selected_square : Option Nat
  game_over : Bool
  pending_ai : Bool
deriving DecidableEq, Repr

/-- The promotion field of the candidate move (app.py lines 174-179):
default `None`; if the piece at the selected square is a pawn, and the
selected square is on rank index 6 while the clicked square is on rank
index 7, promote to a queen. -/
def construct_promotion {β : Type} (E : RulesEngine β) (board : β)
    (sel square : Nat) : Option PieceType :=
  match E.piece_at board sel with
  | some piece =>
      if piece.piece_type = PieceType.PAWN then
        if square_rank sel = 6 ∧ square_rank square = 7 then
          some PieceType.QUEEN
        else
          none
      else
        none
  | none => none

/-- `ChessApp.check_game_over` (app.py lines 231-251), state effect only:
if the engine reports the game over, set the `game_over` flag and return
`true`; otherwise leave the state alone and return `false`.  The result
message (console print and message box) is presentation-only. -/
def check_game_over {β : Type} (E : RulesEngine β) (s : AppState β) :
    AppState β × Bool :=
  if E.is_game_over s.board then
    ({ s with game_over := true }, true)
  else
    (s, false)

/-- `ChessApp.trigger_ai_move` (app.py lines 214-219): schedule the AI reply
callback.  In the embedding this records the pending callback. -/
def trigger_ai_move {β : Type} (s : AppState β) : AppState β :=
  { s with pending_ai := true }

/-- The selection attempt shared by both "no piece is selected" paths of
`on_square_click` (app.py lines 207-212, also reached when
`self.selected_square` is the falsy square 0): select the clicked square
when it holds a piece of the side to move, otherwise do nothing. -/
def try_select {β : Type} (E : RulesEngine β) (s : AppState β)
    (square : Nat) : AppState β :=
  match E.piece_at s.board square with
  | some piece =>
      if piece.color = E.turn s.board then
        { s with selected_square := some square }
      else
        s
  | none => s

/-- `ChessApp.on_square_click` (app.py lines 156-212), state effect only
(`redraw_board` calls are presentation-only).  Clicks are ignored when the
game is over or it is not White's turn.  With a (truthy) selection, build
the candidate move; if legal, push it, clear the selection, check for game
over and otherwise schedule the AI reply; if the clicked square re-clicks
the selection, deselect; otherwise reselect when the clicked square holds a
piece of the side to move and clear the selection when it does not.  With
no truthy selection, try to select the clicked square. -/
def on_square_click {β : Type} (E : RulesEngine β) (s : AppState β)
    (square : Nat) : AppState β :=
  if s.game_over then
    s
  else if E.turn s.board ≠ Color.WHITE then
    s
  else
    match s.selected_square with
    | some sel =>
        -- `if self.selected_square:` is Python truthiness: it takes the
        -- "piece already selected" branch only when the selected square is
        -- not `None` AND not the integer 0 (square a1); a selection of a1
        -- falls through to the "no piece is selected" branch below.
        if sel ≠ 0 then
          let promotion := construct_promotion E s.board sel square
          let move : Move := ⟨sel, square, promotion⟩
          if move ∈ E.legal_moves s.board then
            let pushed : AppState β :=
              { s with board := E.push s.board move, selected_square := none }
            let checked := check_game_over E pushed
            if checked.2 then
              checked.1
            else
              trigger_ai_move checked.1
          else if square = sel then
            { s with selected_square := none }
          else
            match E.piece_at s.board square with
            | some piece_at_click =>
                if piece_at_click.color = E.turn s.board then
                  { s with selected_square := some square }
                else
                  { s with selected_square := none }
            | none => { s with selected_square := none }
        else
          try_select E s square
    | none => try_select E s square

/-- `ChessApp.execute_ai_move` (app.py lines 221-229): the scheduled callback
fires (consuming `pending_ai`); unless the game is over, let the AI move and
re-check for game over.  `pick` models `random.choice`. -/
def execute_ai_move {β : Type} (E : RulesEngine β) (pick : List Move → Move)
    (s : AppState β) : AppState β :=
  let fired : AppState β := { s with pending_ai := false }
  if fired.game_over then
    fired
  else
    let moved : AppState β :=
      { fired with board := (make_ai_move E fired.board pick).2 }
    (check_game_over E moved).1

/-- One step of the interactive session: either a click event is delivered
to `on_square_click`, or a scheduled AI callback fires (`execute_ai_move`
runs only when a `trigger_ai_move` callback is pending). -/
def SessionStep {β : Type} (E : RulesEngine β) (pick : List Move → Move)
    (s s' : AppState β) : Prop :=
  (∃ square, s' = on_square_click E s square) ∨
  (s.pending_ai = true ∧ s' = execute_ai_move E pick s)

/-- The selection invariant of the controller: a selected square always
holds a White piece (the human's colour), and while an AI callback is
pending the selection is cleared and it is Black's turn (so clicks are
ignored until the AI has replied). -/
def SelectionInv {β : Type} (E : RulesEngine β) (s : AppState β) : Prop :=
  (∀ sq, s.selected_square = some sq →
    ∃ p, E.piece_at s.board sq = some p ∧ p.color = Color.WHITE) ∧
  (s.pending_ai = true →
    s.selected_square = none ∧ E.turn s.board = Color.BLACK)

/-- The score the selector assigns to a legal move: evaluate the board with
the move pushed (the source pops right after, restoring the board). -/
def move_score {β : Type} (E : RulesEngine β) (b : β) (m : Move) : Int :=
  evaluate_board E (E.push b m)

theorem select_best_nil {β : Type} (E : RulesEngine β) (b : β)
    (best : List Move) (bs : Option Int) :
    select_best E b [] best bs = (best, bs) := rfl

theorem select_best_cons {β : Type} (E : RulesEngine β) (b : β) (move : Move)
    (rest best : List Move) (bs : Option Int) :
    select_best E b (move :: rest) best bs =
      if score_lt (move_score E b move) bs then
        select_best E b rest [move] (some (move_score E b move))
      else if score_eq (move_score E b move) bs then
        select_best E b rest (best ++ [move]) bs
      else
        select_best E b rest best bs := rfl

/-- Full characterisation of the scoring loop, by induction over the
remaining moves: every collected move comes from the accumulator or the
processed list and scores exactly the final best score; the final best score
bounds every processed move's score from below; the collected list is
nonempty as soon as anything was processed or accumulated; and the best
score only decreases. -/
theorem select_best_spec {β : Type} (E : RulesEngine β) (b : β) :
    ∀ (ms best : List Move) (bs : Option Int),
      (∀ m ∈ best, some (move_score E b m) = bs) →
      (bs ≠ none → best ≠ []) →
      (∀ m ∈ (select_best E b ms best bs).1,
          (m ∈ best ∨ m ∈ ms) ∧
          some (move_score E b m) = (select_best E b ms best bs).2) ∧
      (∀ m ∈ ms, ∃ c, (select_best E b ms best bs).2 = some c ∧
          c ≤ move_score E b m) ∧
      ((best ≠ [] ∨ ms ≠ []) → (select_best E b ms best bs).1 ≠ []) ∧
      (∀ c', bs = some c' → ∃ c, (select_best E b ms best bs).2 = some c ∧
          c ≤ c') := by
  intro ms
  induction ms with
  | nil =>
      intro best bs h1 _h2
      rw [select_best_nil]
      refine ⟨fun m hm => ⟨Or.inl hm, h1 m hm⟩, by simp, ?_, ?_⟩
      · rintro (h | h)
        · exact h
        · exact absurd rfl h
      · intro c' hc'
        exact ⟨c', hc', le_refl c'⟩
  | cons move rest ih =>
      intro best bs h1 h2
      rw [select_best_cons]
      by_cases hlt : score_lt (move_score E b move) bs = true
      · rw [if_pos hlt]
        have hacc : ∀ m ∈ [move], some (move_score E b m) =
            some (move_score E b move) := by
          intro m hm
          rw [List.mem_singleton] at hm
          rw [hm]
        obtain ⟨ih1, ih2, ih3, ih4⟩ :=
          ih [move] (some (move_score E b move)) hacc (by simp)
        refine ⟨?_, ?_, ?_, ?_⟩
        · intro m hm
          obtain ⟨hmem, hsc⟩ := ih1 m hm
          refine ⟨?_, hsc⟩
          rcases hmem with hmem | hmem
          · rw [List.mem_singleton] at hmem
            exact Or.inr (hmem ▸ List.mem_cons_self move rest)
          · exact Or.inr (List.mem_cons_of_mem move hmem)
        · intro m hm
          rcases List.mem_cons.mp hm with hm | hm
          · obtain ⟨c, hc, hle⟩ := ih4 (move_score E b move) rfl
            exact ⟨c, hc, hm ▸ hle⟩
          · exact ih2 m hm
        · intro _
          exact ih3 (Or.inl (by simp))
        · intro c' hc'
          obtain ⟨c, hc, hle⟩ := ih4 (move_score E b move) rfl
          refine ⟨c, hc, ?_⟩
          have : move_score E b move < c' := by
            have := hlt
            rw [hc'] at this
            simpa [score_lt] using this
          omega
      · rw [if_neg hlt]
        by_cases heq : score_eq (move_score E b move) bs = true
        · rw [if_pos heq]
          obtain ⟨c₀, hbs⟩ : ∃ c₀, bs = some c₀ := by
            cases bs with
            | none => simp [score_eq] at heq
            | some c => exact ⟨c, rfl⟩
          have hmovescore : move_score E b move = c₀ := by
            rw [hbs] at heq
            simpa [score_eq] using heq
          have hacc : ∀ m ∈ best ++ [move], some (move_score E b m) = bs := by
            intro m hm
            rcases List.mem_append.mp hm with hm | hm
            · exact h1 m hm
            · rw [List.mem_singleton] at hm
              rw [hm, hmovescore, hbs]
          obtain ⟨ih1, ih2, ih3, ih4⟩ := ih (best ++ [move]) bs hacc (by simp)
          refine ⟨?_, ?_, ?_, ?_⟩
          · intro m hm
            obtain ⟨hmem, hsc⟩ := ih1 m hm
            refine ⟨?_, hsc⟩
            rcases hmem with hmem | hmem
            · rcases List.mem_append.mp hmem with hmem | hmem
              · exact Or.inl hmem
              · rw [List.mem_singleton] at hmem
                exact Or.inr (hmem ▸ List.mem_cons_self move rest)
            · exact Or.inr (List.mem_cons_of_mem move hmem)
          · intro m hm
            rcases List.mem_cons.mp hm with hm | hm
            · obtain ⟨c, hc, hle⟩ := ih4 c₀ hbs
              exact ⟨c, hc, by rw [hm, hmovescore]; exact hle⟩
            · exact ih2 m hm
          · intro _
            exact ih3 (Or.inl (by simp))
          · exact ih4
        · rw [if_neg heq]
          obtain ⟨c₀, hbs⟩ : ∃ c₀, bs = some c₀ := by
            cases bs with
            | none => simp [score_lt] at hlt
            | some c => exact ⟨c, rfl⟩
          have hgt : c₀ < move_score E b move := by
            rw [hbs] at hlt heq
            simp [score_lt] at hlt
            simp [score_eq] at heq
            omega
          have hbne : best ≠ [] := h2 (by rw [hbs]; exact Option.some_ne_none c₀)
          obtain ⟨ih1, ih2, ih3, ih4⟩ := ih best bs h1 h2
          refine ⟨?_, ?_, ?_, ?_⟩
          · intro m hm
            obtain ⟨hmem, hsc⟩ := ih1 m hm
            refine ⟨?_, hsc⟩
            rcases hmem with hmem | hmem
            · exact Or.inl hmem
            · exact Or.inr (List.mem_cons_of_mem move hmem)
          · intro m hm
            rcases List.mem_cons.mp hm with hm | hm
            · obtain ⟨c, hc, hle⟩ := ih4 c₀ hbs
              refine ⟨c, hc, ?_⟩
              rw [hm]
              omega
            · exact ih2 m hm
          · intro _
            exact ih3 (Or.inl hbne)
          · exact ih4

theorem make_ai_move_eq_of_nonempty {β : Type} (E : RulesEngine β) (b : β)
    (pick : List Move → Move) (hne : E.legal_moves b ≠ [])
    (hbne : (select_best E b (E.legal_moves b) [] none).1 ≠ []) :
    make_ai_move E b pick =
      (true, E.push b (pick (select_best E b (E.legal_moves b) [] none).1)) := by
  unfold make_ai_move
  simp only [List.isEmpty_iff, if_neg hne, if_neg hbne]

/-- C1: with a non-empty legal-move set, `make_ai_move` reports success and,
whatever the random tie-break `pick` returns (any function that picks an
element of a non-empty list), the applied move is a legal move whose
resulting board minimises `evaluate_board` over the boards obtained by
applying each legal move. -/
theorem make_ai_move_plays_minimal_legal_move {β : Type} (E : RulesEngine β)
    (b : β) (pick : List Move → Move)
    (hne : E.legal_moves b ≠ [])
    (hpick : ∀ l : List Move, l ≠ [] → pick l ∈ l) :
    (make_ai_move E b pick).1 = true ∧
    ∃ m ∈ E.legal_moves b,
      (make_ai_move E b pick).2 = E.push b m ∧
      ∀ m' ∈ E.legal_moves b,
        evaluate_board E (E.push b m) ≤ evaluate_board E (E.push b m') := by
  obtain ⟨ih1, ih2, ih3, _ih4⟩ :=
    select_best_spec E b (E.legal_moves b) [] none (by simp)
      (fun h => absurd rfl h)
  have hbne := ih3 (Or.inr hne)
  rw [make_ai_move_eq_of_nonempty E b pick hne hbne]
  obtain ⟨hmem, hsc⟩ := ih1 _ (hpick _ hbne)
  have hmemlegal :
      pick (select_best E b (E.legal_moves b) [] none).1 ∈ E.legal_moves b := by
    rcases hmem with h | h
    · exact absurd h (List.not_mem_nil _)
    · exact h
  refine ⟨rfl, pick (select_best E b (E.legal_moves b) [] none).1,
    hmemlegal, rfl, ?_⟩
  intro m' hm'
  obtain ⟨c, hc, hle⟩ := ih2 m' hm'
  rw [hc] at hsc
  have heq : move_score E b (pick (select_best E b (E.legal_moves b) [] none).1)
      = c := Option.some.inj hsc
  show move_score E b _ ≤ move_score E b m'
  omega

/-- C9: `make_ai_move` with an empty legal-move set returns the no-move
signal `False` with the board untouched; with a non-empty set the result is
the input board with exactly the single chosen legal move pushed.  The
scoring loop itself never changes the board: each candidate push is scored
on a successor value and the original board is what every later iteration
(and the final push) uses, which is the pure rendering of the source's
matching `board.push`/`board.pop` pairs. -/
theorem make_ai_move_frame {β : Type} (E : RulesEngine β) (b : β)
    (pick : List Move → Move) :
    (E.legal_moves b = [] → make_ai_move E b pick = (false, b)) ∧
    ((∀ l : List Move, l ≠ [] → pick l ∈ l) → E.legal_moves b ≠ [] →
      ∃ m ∈ E.legal_moves b, make_ai_move E b pick = (true, E.push b m)) := by
  constructor
  · intro h
    unfold make_ai_move
    simp only [List.isEmpty_iff, if_pos h]
  · intro hpick hne
    obtain ⟨ih1, _ih2, ih3, _ih4⟩ :=
      select_best_spec E b (E.legal_moves b) [] none (by simp)
        (fun h => absurd rfl h)
    have hbne := ih3 (Or.inr hne)
    obtain ⟨hmem, _⟩ := ih1 _ (hpick _ hbne)
    refine ⟨pick (select_best E b (E.legal_moves b) [] none).1, ?_,
      make_ai_move_eq_of_nonempty E b pick hne hbne⟩
    rcases hmem with h | h
    · exact absurd h (List.not_mem_nil _)
    · exact h

/-- A deterministic tie-break standing in for `random.choice` in concrete
runs: take the head of the candidate list. -/
def pick_first (l : List Move) : Move :=
  l.headD ⟨0, 0, none⟩

theorem pick_first_mem : ∀ l : List Move, l ≠ [] → pick_first l ∈ l := by
  intro l hl
  cases l with
  | nil => exact absurd rfl hl
  | cons a t => exact List.mem_cons_self a t

/-- Piece placement of the concrete selector test engine: board 1 has a
single White pawn (score 1), board 2 a single White queen (score 9),
every other board is empty. -/
def selector_piece_at (b sq : Nat) : Option Piece :=
  if b = 1 ∧ sq = 0 then some ⟨Color.WHITE, PieceType.PAWN⟩
  else if b = 2 ∧ sq = 0 then some ⟨Color.WHITE, PieceType.QUEEN⟩
  else none

def move_a : Move := ⟨8, 0, none⟩

def move_b : Move := ⟨9, 0, none⟩

/-- A concrete rules engine over `Nat` board identifiers for exercising the
selector: board 0 has two legal moves leading to boards 1 and 2. -/
def selector_engine : RulesEngine Nat where
  piece_at := selector_piece_at
  turn := fun b => if b % 2 = 0 then Color.WHITE else Color.BLACK
  legal_moves := fun b => if b = 0 then [move_a, move_b] else []
  push := fun b m =>
    if b = 0 ∧ m = move_a then 1 else if b = 0 ∧ m = move_b then 2 else b + 3
  is_game_over := fun _ => false

theorem make_ai_move_plays_minimal_legal_move_witness :
    (make_ai_move selector_engine 0 pick_first).1 = true ∧
    ∃ m ∈ selector_engine.legal_moves 0,
      (make_ai_move selector_engine 0 pick_first).2 = selector_engine.push 0 m ∧
      ∀ m' ∈ selector_engine.legal_moves 0,
        evaluate_board selector_engine (selector_engine.push 0 m) ≤
          evaluate_board selector_engine (selector_engine.push 0 m') :=
  make_ai_move_plays_minimal_legal_move selector_engine 0 pick_first
    (by decide) pick_first_mem

theorem make_ai_move_frame_witness :
    make_ai_move selector_engine 3 pick_first = (false, 3) ∧
    ∃ m ∈ selector_engine.legal_moves 0,
      make_ai_move selector_engine 0 pick_first =
        (true, selector_engine.push 0 m) :=
  ⟨(make_ai_move_frame selector_engine 3 pick_first).1 (by decide),
   (make_ai_move_frame selector_engine 0 pick_first).2 pick_first_mem
     (by decide)⟩

theorem foldl_add_eq_sum (f : Nat → Int) :
    ∀ (l : List Nat) (a : Int),
      l.foldl (fun s x => s + f x) a = a + (l.map f).sum := by
  intro l
  induction l with
  | nil => intro a; simp
  | cons x t ih =>
      intro a
      rw [List.foldl_cons, ih, List.map_cons, List.sum_cons]
      ring

theorem evaluate_board_eq_sum {β : Type} (E : RulesEngine β) (b : β) :
    evaluate_board E b =
      ((List.range 64).map (fun sq => signed_value (E.piece_at b sq))).sum := by
  unfold evaluate_board
  have hfun : (fun (score : Int) (square : Nat) =>
      match E.piece_at b square with
      | some piece =>
          if piece.color = Color.WHITE then score + piece_values piece.piece_type
          else score - piece_values piece.piece_type
      | none => score) =
      fun (score : Int) (square : Nat) =>
        score + signed_value (E.piece_at b square) := by
    funext score square
    cases hsq : E.piece_at b square with
    | none => simp [signed_value]
    | some p =>
        by_cases hp : p.color = Color.WHITE
        · simp only [signed_value, if_pos hp, one_mul]
        · simp only [signed_value, if_neg hp, neg_one_mul]
          ring
  rw [hfun, foldl_add_eq_sum]
  ring

/-- C3: `evaluate_board` is exactly the sum, over the 64 squares, of the
fixed piece value (pawn 1, knight 3, bishop 3, rook 5, queen 9, king 0)
signed +1 for White and −1 for Black; and it depends on the board contents
only: two boards (even under different engines) agreeing square-by-square
evaluate identically.  The embedding is a pure function, so the source's
freedom from mutation is inherited structurally. -/
theorem evaluate_board_is_signed_material_sum {β γ : Type}
    (E : RulesEngine β) (F : RulesEngine γ) (b : β) (c : γ)
    (h : ∀ sq, E.piece_at b sq = F.piece_at c sq) :
    evaluate_board E b =
      ((List.range 64).map (fun sq => signed_value (E.piece_at b sq))).sum ∧
    evaluate_board E b = evaluate_board F c := by
  refine ⟨evaluate_board_eq_sum E b, ?_⟩
  rw [evaluate_board_eq_sum E b, evaluate_board_eq_sum F c]
  simp only [h]

theorem evaluate_board_is_signed_material_sum_witness :
    evaluate_board selector_engine 1 =
      ((List.range 64).map
        (fun sq => signed_value (selector_engine.piece_at 1 sq))).sum ∧
    evaluate_board selector_engine 1 = evaluate_board selector_engine 1 :=
  evaluate_board_is_signed_material_sum selector_engine selector_engine 1 1
    (fun _ => rfl)

/-- C4: once `game_over` is set, a click event returns the state unchanged,
and the AI callback `execute_ai_move` applies no move — board, selection and
the terminal flag are untouched (the consumed `pending_ai` scheduling flag
is the only field the fired callback clears).  The flag is never reset, so
the terminal status cannot revert. -/
theorem terminal_state_absorbing {β : Type} (E : RulesEngine β)
    (pick : List Move → Move) (s : AppState β) (square : Nat)
    (h : s.game_over = true) :
    on_square_click E s square = s ∧
    (execute_ai_move E pick s).board = s.board ∧
    (execute_ai_move E pick s).selected_square = s.selected_square ∧
    (execute_ai_move E pick s).game_over = true := by
  refine ⟨?_, ?_, ?_, ?_⟩
  · unfold on_square_click
    rw [if_pos h]
  all_goals
    unfold execute_ai_move
    simp [h]

theorem terminal_state_absorbing_witness :
    on_square_click selector_engine
      (⟨0, none, true, false⟩ : AppState Nat) 3 =
      (⟨0, none, true, false⟩ : AppState Nat) ∧
    (execute_ai_move selector_engine pick_first
      (⟨0, none, true, false⟩ : AppState Nat)).board = 0 ∧
    (execute_ai_move selector_engine pick_first
      (⟨0, none, true, false⟩ : AppState Nat)).selected_square = none ∧
    (execute_ai_move selector_engine pick_first
      (⟨0, none, true, false⟩ : AppState Nat)).game_over = true :=
  terminal_state_absorbing selector_engine pick_first
    ⟨0, none, true, false⟩ 3 rfl

/-- C5: a click delivered when the game is already over or it is not
White's (the human's) turn is a no-op: `on_square_click` returns the state
exactly as given.  The embedding is a total function, so no error is
signalled on this path. -/
theorem out_of_turn_click_is_noop {β : Type} (E : RulesEngine β)
    (s : AppState β) (square : Nat)
    (h : s.game_over = true ∨ E.turn s.board ≠ Color.WHITE) :
    on_square_click E s square = s := by
  unfold on_square_click
  rcases h with h | h
  · rw [if_pos h]
  · by_cases hg : s.game_over = true
    · rw [if_pos hg]
    · rw [if_neg hg, if_pos h]

theorem out_of_turn_click_is_noop_witness :
    on_square_click selector_engine
      (⟨1, none, false, false⟩ : AppState Nat) 3 =
      (⟨1, none, false, false⟩ : AppState Nat) :=
  out_of_turn_click_is_noop selector_engine ⟨1, none, false, false⟩ 3
    (Or.inr (by decide))

/-- Piece placement of the a1-truthiness test engine: on board 0 a White
rook sits on square 0 (a1); every other square is empty. -/
def bug_piece_at (b sq : Nat) : Option Piece :=
  if b = 0 ∧ sq = 0 then some ⟨Color.WHITE, PieceType.ROOK⟩ else none

/-- A concrete rules engine for exercising the `if self.selected_square:`
truthiness behaviour: on board 0 it is White's turn and the single legal
move goes from square 0 (a1) to square 8 (a2). -/
def bug_engine : RulesEngine Nat where
  piece_at := bug_piece_at
  turn := fun b => if b % 2 = 0 then Color.WHITE else Color.BLACK
  legal_moves := fun b => if b = 0 then [⟨0, 8, none⟩] else []
  push := fun b _ => b + 1
  is_game_over := fun _ => false

/-- C2 evaluated at the failing input: the human clicks the White rook on
a1 (square 0), which records `selected_square = 0`; the candidate move from
a1 to the clicked square 8 is legal, yet the second click leaves the state
unchanged — the move is not applied, because Python's
`if self.selected_square:` treats the selected square 0 as no selection. -/
theorem selected_a1_legal_move_not_applied :
    on_square_click bug_engine (⟨0, none, false, false⟩ : AppState Nat) 0 =
      (⟨0, some 0, false, false⟩ : AppState Nat) ∧
    (⟨0, 8, none⟩ : Move) ∈ bug_engine.legal_moves 0 ∧
    on_square_click bug_engine (⟨0, some 0, false, false⟩ : AppState Nat) 8 =
      (⟨0, some 0, false, false⟩ : AppState Nat) := by
  decide

/-- C6 evaluated at the failing input X = a1: square 0 holds a piece of the
side to move, the first click selects it, but the second click on the same
square re-selects it instead of clearing the selection — the deselection
branch is unreachable for a1 because `if self.selected_square:` is false
for the integer 0. -/
theorem reclick_a1_does_not_deselect :
    bug_piece_at 0 0 = some ⟨Color.WHITE, PieceType.ROOK⟩ ∧
    bug_engine.turn 0 = Color.WHITE ∧
    on_square_click bug_engine (⟨0, none, false, false⟩ : AppState Nat) 0 =
      (⟨0, some 0, false, false⟩ : AppState Nat) ∧
    on_square_click bug_engine (⟨0, some 0, false, false⟩ : AppState Nat) 0 =
      (⟨0, some 0, false, false⟩ : AppState Nat) := by
  decide

/-- C7 evaluated at the failing input: with a1 (square 0) selected, a click
on the empty square 16 — an illegal candidate move — should clear the
selection, but the state is returned unchanged with `selected_square`
still set, again because the selected square 0 is falsy. -/
theorem illegal_click_from_a1_keeps_selection :
    (⟨0, 16, none⟩ : Move) ∉ bug_engine.legal_moves 0 ∧
    bug_piece_at 0 16 = none ∧
    on_square_click bug_engine (⟨0, some 0, false, false⟩ : AppState Nat) 16 =
      (⟨0, some 0, false, false⟩ : AppState Nat) := by
  decide

/-- Whether an optional square content is a White pawn; used to phrase the
pawn-geometry fact assumed of the external rules engine. -/
def is_white_pawn : Option Piece → Bool
  | some p => p.color = Color.WHITE && p.piece_type = PieceType.PAWN
  | none => false

/-- C8: the candidate move the controller constructs never carries an
underpromotion — its promotion field is `None` or queen — and, for any
candidate that is actually legal, the promotion is a queen exactly when the
moving White piece is a pawn and the destination lies on rank 7, White's
final rank.  `hgeo` is the pawn geometry guaranteed by the external rules
engine (a legal White pawn move to rank 7 starts on rank 6). -/
theorem promotion_queen_exactly_on_final_rank {β : Type} (E : RulesEngine β)
    (b : β) (sel square : Nat) (p : Piece)
    (hp : E.piece_at b sel = some p) (hw : p.color = Color.WHITE)
    (hgeo : ∀ m ∈ E.legal_moves b,
      is_white_pawn (E.piece_at b m.from_square) = true →
      square_rank m.to_square = 7 → square_rank m.from_square = 6) :
    (construct_promotion E b sel square = none ∨
      construct_promotion E b sel square = some PieceType.QUEEN) ∧
    ((⟨sel, square, construct_promotion E b sel square⟩ : Move) ∈
        E.legal_moves b →
      (construct_promotion E b sel square = some PieceType.QUEEN ↔
        p.piece_type = PieceType.PAWN ∧ square_rank square = 7)) := by
  have hcp : construct_promotion E b sel square =
      (if p.piece_type = PieceType.PAWN then
        if square_rank sel = 6 ∧ square_rank square = 7 then
          some PieceType.QUEEN
        else none
      else none) := by
    unfold construct_promotion
    rw [hp]
  constructor
  · rw [hcp]
    by_cases hpawn : p.piece_type = PieceType.PAWN
    · rw [if_pos hpawn]
      by_cases hr : square_rank sel = 6 ∧ square_rank square = 7
      · exact Or.inr (if_pos hr)
      · exact Or.inl (if_neg hr)
    · exact Or.inl (if_neg hpawn)
  · intro hlegal
    by_cases hpawn : p.piece_type = PieceType.PAWN
    · by_cases hr : square_rank sel = 6 ∧ square_rank square = 7
      · rw [hcp, if_pos hpawn, if_pos hr]
        exact ⟨fun _ => ⟨hpawn, hr.2⟩, fun _ => rfl⟩
      · rw [hcp, if_pos hpawn, if_neg hr] at hlegal ⊢
        constructor
        · intro hcontr
          exact absurd hcontr (by simp)
        · rintro ⟨-, h7⟩
          have hwp : is_white_pawn (E.piece_at b sel) = true := by
            rw [hp]
            simp [is_white_pawn, hw, hpawn]
          have h6 := hgeo ⟨sel, square, none⟩ hlegal hwp h7
          exact absurd ⟨h6, h7⟩ hr
    · rw [hcp, if_neg hpawn]
      constructor
      · intro hcontr
        exact absurd hcontr (by simp)
      · rintro ⟨hcontr, -⟩
        exact absurd hcontr hpawn

/-- Piece placement of the promotion test engine: on board 0 a White pawn
sits on square 48 (a7, rank index 6); every other square is empty. -/
def promo_piece_at (b sq : Nat) : Option Piece :=
  if b = 0 ∧ sq = 48 then some ⟨Color.WHITE, PieceType.PAWN⟩ else none

/-- A concrete rules engine for exercising promotion construction: on
board 0 the single legal move pushes the a7 pawn to a8 (square 56),
promoting to a queen. -/
def promo_engine : RulesEngine Nat where
  piece_at := promo_piece_at
  turn := fun b => if b % 2 = 0 then Color.WHITE else Color.BLACK
  legal_moves := fun b =>
    if b = 0 then [⟨48, 56, some PieceType.QUEEN⟩] else []
  push := fun b _ => b + 1
  is_game_over := fun _ => false

theorem promotion_queen_exactly_on_final_rank_witness :
    (construct_promotion promo_engine 0 48 56 = none ∨
      construct_promotion promo_engine 0 48 56 = some PieceType.QUEEN) ∧
    ((⟨48, 56, construct_promotion promo_engine 0 48 56⟩ : Move) ∈
        promo_engine.legal_moves 0 →
      (construct_promotion promo_engine 0 48 56 = some PieceType.QUEEN ↔
        Piece.piece_type ⟨Color.WHITE, PieceType.PAWN⟩ = PieceType.PAWN ∧
          square_rank 56 = 7)) :=
  promotion_queen_exactly_on_final_rank promo_engine 0 48 56
    ⟨Color.WHITE, PieceType.PAWN⟩ (by decide) rfl (by decide)

theorem check_game_over_fields {β : Type} (E : RulesEngine β)
    (s : AppState β) :
    (check_game_over E s).1.selected_square = s.selected_square ∧
    (check_game_over E s).1.pending_ai = s.pending_ai ∧
    (check_game_over E s).1.board = s.board := by
  unfold check_game_over
  by_cases h : E.is_game_over s.board = true
  · rw [if_pos h]
    exact ⟨rfl, rfl, rfl⟩
  · rw [if_neg h]
    exact ⟨rfl, rfl, rfl⟩

theorem inv_of_cleared {β : Type} (E : RulesEngine β) (s' : AppState β)
    (h1 : s'.selected_square = none)
    (h2 : s'.pending_ai = true → E.turn s'.board = Color.BLACK) :
    SelectionInv E s' := by
  refine ⟨?_, ?_⟩
  · intro sq h
    rw [h1] at h
    exact Option.noConfusion h
  · intro hp
    exact ⟨h1, h2 hp⟩

theorem try_select_inv {β : Type} (E : RulesEngine β) (s : AppState β)
    (square : Nat) (ht : E.turn s.board = Color.WHITE)
    (hinv : SelectionInv E s) : SelectionInv E (try_select E s square) := by
  obtain ⟨hsel, hpend⟩ := hinv
  unfold try_select
  cases hpc : E.piece_at s.board square with
  | none => exact ⟨hsel, hpend⟩
  | some piece =>
      dsimp only
      by_cases hc : piece.color = E.turn s.board
      · rw [if_pos hc]
        refine ⟨?_, ?_⟩
        · intro sq h
          simp only [Option.some.injEq] at h
          refine ⟨piece, ?_, ?_⟩
          · rw [← h]
            exact hpc
          · rw [hc, ht]
        · intro hp
          have := (hpend hp).2
          rw [ht] at this
          exact absurd this (by decide)
      · rw [if_neg hc]
        exact ⟨hsel, hpend⟩

/-- C10: the controller's selection invariant is established by the initial
state and preserved by every session step (any click event and any fired AI
callback): a set `selected_square` always points at a White piece on the
current board, and while an AI callback is pending the selection is cleared
and it is Black's turn, so the board cannot change under a live selection.
`halt` is the side-to-move alternation guaranteed by the external rules
engine. -/
theorem selection_invariant_preserved {β : Type} (E : RulesEngine β)
    (pick : List Move → Move)
    (halt : ∀ (b : β) (m : Move), E.turn b = Color.WHITE →
      E.turn (E.push b m) = Color.BLACK) :
    (∀ b0 : β, SelectionInv E ⟨b0, none, false, false⟩) ∧
    (∀ s s' : AppState β, SelectionInv E s → SessionStep E pick s s' →
      SelectionInv E s') := by
  constructor
  · intro b0
    refine ⟨?_, ?_⟩
    · intro sq h
      exact Option.noConfusion h
    · intro hp
      exact Bool.noConfusion hp
  · intro s s' hinv hstep
    rcases hstep with ⟨square, rfl⟩ | ⟨hpending, rfl⟩
    · -- a click event
      obtain ⟨hsel, hpend⟩ := hinv
      unfold on_square_click
      by_cases hg : s.game_over = true
      · rw [if_pos hg]
        exact ⟨hsel, hpend⟩
      · rw [if_neg hg]
        by_cases ht : E.turn s.board ≠ Color.WHITE
        · rw [if_pos ht]
          exact ⟨hsel, hpend⟩
        · rw [if_neg ht]
          push_neg at ht
          cases hselsq : s.selected_square with
          | none => exact try_select_inv E s square ht ⟨hsel, hpend⟩
          | some sel =>
              dsimp only
              by_cases h0 : sel ≠ 0
              · rw [if_pos h0]
                by_cases hlegal :
                    (⟨sel, square, construct_promotion E s.board sel square⟩ :
                      Move) ∈ E.legal_moves s.board
                · rw [if_pos hlegal]
                  by_cases hchecked : (check_game_over E
                      { s with
                        board := E.push s.board
                          ⟨sel, square,
                            construct_promotion E s.board sel square⟩,
                        selected_square := none }).2 = true
                  · rw [if_pos hchecked]
                    refine inv_of_cleared E _ ?_ ?_
                    · rw [(check_game_over_fields E _).1]
                    · intro hp
                      rw [(check_game_over_fields E _).2.1] at hp
                      have := (hpend hp).2
                      rw [ht] at this
                      exact absurd this (by decide)
                  · rw [if_neg hchecked]
                    unfold trigger_ai_move
                    refine inv_of_cleared E _ ?_ ?_
                    · dsimp only
                      rw [(check_game_over_fields E _).1]
                    · intro _
                      dsimp only
                      rw [(check_game_over_fields E _).2.2]
                      exact halt s.board
                        ⟨sel, square, construct_promotion E s.board sel square⟩
                        ht
                · rw [if_neg hlegal]
                  by_cases hsq : square = sel
                  · rw [if_pos hsq]
                    refine inv_of_cleared E _ rfl ?_
                    intro hp
                    have := (hpend hp).2
                    rw [ht] at this
                    exact absurd this (by decide)
                  · rw [if_neg hsq]
                    cases hpc : E.piece_at s.board square with
                    | none =>
                        refine inv_of_cleared E _ rfl ?_
                        intro hp
                        have := (hpend hp).2
                        rw [ht] at this
                        exact absurd this (by decide)
                    | some piece_at_click =>
                        dsimp only
                        by_cases hc : piece_at_click.color = E.turn s.board
                        · rw [if_pos hc]
                          refine ⟨?_, ?_⟩
                          · intro sq h
                            simp only [Option.some.injEq] at h
                            refine ⟨piece_at_click, ?_, ?_⟩
                            · rw [← h]
                              exact hpc
                            · rw [hc, ht]
                          · intro hp
                            have := (hpend hp).2
                            rw [ht] at this
                            exact absurd this (by decide)
                        · rw [if_neg hc]
                          refine inv_of_cleared E _ rfl ?_
                          intro hp
                          have := (hpend hp).2
                          rw [ht] at this
                          exact absurd this (by decide)
              · rw [if_neg h0]
                exact try_select_inv E s square ht ⟨hsel, hpend⟩
    · -- the scheduled AI callback fires
      obtain ⟨hsel, hpend⟩ := hinv
      obtain ⟨hselnone, _hturn⟩ := hpend hpending
      unfold execute_ai_move
      dsimp only
      by_cases hg : s.game_over = true
      · rw [if_pos hg]
        refine inv_of_cleared E _ hselnone ?_
        intro hp
        exact Bool.noConfusion hp
      · rw [if_neg hg]
        refine inv_of_cleared E _ ?_ ?_
        · rw [(check_game_over_fields E _).1]
          exact hselnone
        · intro hp
          rw [(check_game_over_fields E _).2.1] at hp
          exact Bool.noConfusion hp

theorem bug_engine_alternates :
    ∀ (b : Nat) (m : Move), bug_engine.turn b = Color.WHITE →
      bug_engine.turn (bug_engine.push b m) = Color.BLACK := by
  intro b m h
  by_cases hb : b % 2 = 0
  · show (if (b + 1) % 2 = 0 then Color.WHITE else Color.BLACK) = Color.BLACK
    rw [if_neg (by omega)]
  · exfalso
    have : bug_engine.turn b = Color.BLACK := by
      show (if b % 2 = 0 then Color.WHITE else Color.BLACK) = Color.BLACK
      rw [if_neg hb]
    rw [h] at this
    exact absurd this (by decide)

theorem selection_invariant_preserved_witness :
    (∀ b0 : Nat, SelectionInv bug_engine ⟨b0, none, false, false⟩) ∧
    (∀ s s' : AppState Nat, SelectionInv bug_engine s →
      SessionStep bug_engine pick_first s s' → SelectionInv bug_engine s') :=
  selection_invariant_preserved bug_engine pick_first bug_engine_alternates

end ChessGame
